import Mathlib

/-!
# Grove: a minimal content-addressed version-control engine

Shallow embedding of the class Grove of grove.mjs and proofs about it.

The repository on disk is three things under the hidden directory: the files
of the objects directory, the HEAD file and the index file.  They are the
fields of `Repo`.  What the program takes from libraries is a parameter of the
development (`Env`): the SHA-1 digest behind hashObject, JSON.stringify and
JSON.parse on the texts the program stores, and diffLines of the diff package.
The time stamp of a commit (new Date().toISOString()) and the content read
from the working file by add are inputs of the operations.
-/

namespace Grove

/-! ## Data model -/

/-- Entry of the staging index: the object pushed by updateStagingArea. -/
structure StagingEntry where
  path : String
  hash : String
deriving DecidableEq, Repr

/-- Record built by commit.  The field parentCommit is what getCurrentHead
returned: `none` stands for the JavaScript value null, `some s` for a string. -/
structure CommitData where
  timeStamp : String
  message : String
  files : List StagingEntry
  parentCommit : Option String
deriving DecidableEq, Repr

/-- One part of the result of diffLines: the flags added and removed and the
text of the part. -/
structure DiffPart where
  added : Bool
  removed : Bool
  value : String
deriving DecidableEq, Repr

/-- Outcome of JSON.parse on a text, as far as the program tells values apart:
the call throws, it returns null, it returns an object with the four fields of
a commit record, or it returns some other value. -/
inductive Parsed where
  | parseError
  | null
  | commit (c : CommitData)
  | other
deriving DecidableEq, Repr

/-- Library functions the program calls. -/
structure Env where
  /-- The hex SHA-1 digest computed by hashObject. -/
  hashObject : String → String
  /-- JSON.stringify on a commit record. -/
  stringify : CommitData → String
  /-- JSON.parse on the text of an object file. -/
  parse : String → Parsed
  /-- The function diffLines of the diff package: old text first. -/
  diffLines : String → String → List DiffPart

/-- JSON.parse gives back the commit record that JSON.stringify wrote. -/
def Env.RoundTrip (E : Env) : Prop :=
  ∀ c : CommitData, E.parse (E.stringify c) = Parsed.commit c

/-- JSON.parse of the text null is the value null. -/
def Env.ParsesNull (E : Env) : Prop :=
  E.parse "null" = Parsed.null

/-- A directory of text files: file name to content, `none` when there is no
such file. -/
abbrev Files := String → Option String

/-- The repository on disk. -/
structure Repo where
  /-- Files of the objects directory, by name. -/
  objects : Files
  /-- Content of the HEAD file, `none` when the file does not exist. -/
  head : Option String
  /-- The list held (as JSON text) by the index file, `none` when the file does
  not exist. -/
  index : Option (List StagingEntry)

/-- The files a read can fail on. -/
inductive FileRef where
  | work (path : String)
  | object (name : String)
  | index
deriving DecidableEq, Repr

/-- Ways a call is rejected. -/
inductive Err where
  /-- A call of fs.readFile was rejected. -/
  | readFailed (file : FileRef)
  /-- JSON.parse threw. -/
  | parseError
  /-- A property was read from null. -/
  | typeError
  /-- JSON.parse returned a value that is neither null nor a commit record;
  what the program does with it is not modelled. -/
  | notModelled
  /-- The walk of log was cut by the step bound of the model. -/
  | outOfFuel
deriving DecidableEq, Repr

/-- What the program prints, one constructor per console call. -/
inductive Out where
  /-- The rule printed by log before each commit. -/
  | separator
  /-- The lines Commit, Date and message printed by log. -/
  | commitInfo (hash timeStamp message : String)
  /-- The message of the catch branch of getCommitData. -/
  | failedToReadCommit
  /-- The message Commit not found. -/
  | commitNotFound
  /-- The heading Changes in the last commit are. -/
  | changesHeader
  /-- The line File with the path of the entry. -/
  | file (path : String)
  /-- The content of the blob of the entry. -/
  | content (text : String)
  /-- The heading Diff. -/
  | diffHeader
  /-- A part of the diff printed in green after the mark of an addition. -/
  | diffAdded (value : String)
  /-- A part of the diff printed in red after the mark of a removal. -/
  | diffRemoved (value : String)
  /-- A part of the diff printed in gray. -/
  | diffUnchanged (value : String)
  /-- The message New file in this commit. -/
  | newFile
  /-- The message First commit. -/
  | firstCommit
deriving DecidableEq, Repr

/-! ## Operations -/

/-- The call fs.writeFile without flag: the file is created or replaced. -/
def writeFile (fs : Files) (name data : String) : Files :=
  fun n => if n = name then some data else fs n

/-- Truthiness of a value that is null or a string: null and the empty string
are falsy. -/
def truthy : Option String → Bool
  | none => false
  | some s => decide (s ≠ "")

/-- A blank directory: neither the HEAD file nor the index file exists and
there is no object. -/
def Repo.blank : Repo :=
  { objects := fun _ => none, head := none, index := none }

/-- Method init.  Both files are written with the flag wx, which fails when
the file exists; the first failure skips the rest of the try block. -/
def init (st : Repo) : Repo :=
  match st.head with
  | some _ => st
  | none =>
    match st.index with
    | some _ => { st with head := some "" }
    | none => { st with head := some "", index := some [] }

/-- Method getCurrentHead: the content of the HEAD file, null when reading it
fails. -/
def getCurrentHead (st : Repo) : Option String :=
  st.head

/-- Method updateStagingArea.  A rejected call carries the repository as the
call left it. -/
def updateStagingArea (st : Repo) (filePath fileHash : String) :
    Except (Err × Repo) Repo :=
  match st.index with
  | none => .error (Err.readFailed FileRef.index, st)
  | some index =>
    .ok { st with index := some (index ++ [{ path := filePath, hash := fileHash }]) }

/-- Method add.  The argument fileData is the outcome of reading the working
file: `none` when that read is rejected.  The lines add prints are left out. -/
def add (E : Env) (st : Repo) (fileToBeAdded : String) (fileData : Option String) :
    Except (Err × Repo) Repo :=
  match fileData with
  | none => .error (Err.readFailed (FileRef.work fileToBeAdded), st)
  | some data =>
    let fileHash := E.hashObject data
    updateStagingArea { st with objects := writeFile st.objects fileHash data }
      fileToBeAdded fileHash

/-- The object commitData built by commit from the index it read. -/
def commitData (st : Repo) (message timeStamp : String) (index : List StagingEntry) :
    CommitData :=
  { timeStamp := timeStamp, message := message, files := index,
    parentCommit := getCurrentHead st }

/-- Method commit, with the time stamp as an argument.  The line it prints is
left out. -/
def commit (E : Env) (st : Repo) (message timeStamp : String) :
    Except (Err × Repo) Repo :=
  match st.index with
  | none => .error (Err.readFailed FileRef.index, st)
  | some index =>
    let data := commitData st message timeStamp index
    let commitHash := E.hashObject (E.stringify data)
    .ok { objects := writeFile st.objects commitHash (E.stringify data),
          head := some commitHash,
          index := some [] }

/-- Method getFileContent. -/
def getFileContent (st : Repo) (fileHash : String) : Except Err String :=
  match st.objects fileHash with
  | some text => .ok text
  | none => .error (Err.readFailed (FileRef.object fileHash))

/-- Method getCommitData: the text of the object, or null after printing the
failure; the second component is what it printed. -/
def getCommitData (st : Repo) (commitHash : String) : Option String × List Out :=
  match st.objects commitHash with
  | some text => (some text, [])
  | none => (none, [Out.failedToReadCommit])

/-- The call JSON.parse on a value that is a string or null: the argument is
turned into a string first, and null becomes the text null. -/
def jsonParse (E : Env) (text : Option String) : Parsed :=
  E.parse (text.getD "null")

/-- The loop of log from a given value of currentCommitHash.  The first
argument bounds the number of commits visited. -/
def logWalk (E : Env) (objects : Files) : Nat → Option String → Except Err (List Out)
  | _, none => .ok []
  | 0, some h => if h = "" then .ok [] else .error Err.outOfFuel
  | fuel + 1, some h =>
    if h = "" then .ok []
    else
      match objects h with
      | none => .error (Err.readFailed (FileRef.object h))
      | some text =>
        match E.parse text with
        | Parsed.parseError => .error Err.parseError
        | Parsed.null => .error Err.typeError
        | Parsed.other => .error Err.notModelled
        | Parsed.commit data =>
          match logWalk E objects fuel data.parentCommit with
          | .error e => .error e
          | .ok rest => .ok (Out.separator :: Out.commitInfo h data.timeStamp data.message :: rest)

/-- Method log. -/
def log (E : Env) (fuel : Nat) (st : Repo) : Except Err (List Out) :=
  logWalk E st.objects fuel (getCurrentHead st)

/-- Method getParentFileContent: undefined (`none`) when the parent has no
entry for the path, else the blob of the first such entry. -/
def getParentFileContent (st : Repo) (parentCommitData : CommitData) (filePath : String) :
    Except Err (Option String) :=
  match parentCommitData.files.find? (fun file => decide (file.path = filePath)) with
  | some parentFile =>
    match getFileContent st parentFile.hash with
    | .ok text => .ok (some text)
    | .error e => .error e
  | none => .ok none

/-- The callback of diff.forEach: what is printed for one part. -/
def printPart (part : DiffPart) : Out :=
  if part.added then Out.diffAdded part.value
  else if part.removed then Out.diffRemoved part.value
  else Out.diffUnchanged part.value

/-- Body of the loop of showCommitDiff for one entry of the commit. -/
def showFile (E : Env) (st : Repo) (data : CommitData) (file : StagingEntry) :
    Except Err (List Out) :=
  match getFileContent st file.hash with
  | .error e => .error e
  | .ok fileContent =>
    match data.parentCommit with
    | none => .ok [Out.file file.path, Out.content fileContent, Out.firstCommit]
    | some parent =>
      if parent = "" then .ok [Out.file file.path, Out.content fileContent, Out.firstCommit]
      else
        match jsonParse E (getCommitData st parent).1 with
        | Parsed.parseError => .error Err.parseError
        | Parsed.null => .error Err.typeError
        | Parsed.other => .error Err.notModelled
        | Parsed.commit parentCommitData =>
          match getParentFileContent st parentCommitData file.path with
          | .error e => .error e
          | .ok (some parentFileContent) =>
            .ok ([Out.file file.path, Out.content fileContent] ++ (getCommitData st parent).2 ++
              Out.diffHeader :: (E.diffLines parentFileContent fileContent).map printPart)
          | .ok none =>
            .ok ([Out.file file.path, Out.content fileContent] ++ (getCommitData st parent).2 ++
              [Out.newFile])

/-- The loop of showCommitDiff over the entries of the commit. -/
def showFiles (E : Env) (st : Repo) (data : CommitData) :
    List StagingEntry → Except Err (List Out)
  | [] => .ok []
  | file :: rest =>
    match showFile E st data file with
    | .error e => .error e
    | .ok out =>
      match showFiles E st data rest with
      | .error e => .error e
      | .ok outs => .ok (out ++ outs)

/-- Method showCommitDiff. -/
def showCommitDiff (E : Env) (st : Repo) (commitHash : String) : Except Err (List Out) :=
  match jsonParse E (getCommitData st commitHash).1 with
  | Parsed.parseError => .error Err.parseError
  | Parsed.other => .error Err.notModelled
  | Parsed.null => .ok ((getCommitData st commitHash).2 ++ [Out.commitNotFound])
  | Parsed.commit data =>
    match showFiles E st data data.files with
    | .error e => .error e
    | .ok outs => .ok ((getCommitData st commitHash).2 ++ Out.changesHeader :: outs)

/-! ## Sequences of operations -/

/-- A call that changes the repository: add of a working file that is read
with the given content, or commit with the time stamp it takes. -/
inductive Op where
  | add (path : String) (fileData : String)
  | commit (message timeStamp : String)
deriving DecidableEq, Repr

/-- One call. -/
def step (E : Env) (st : Repo) : Op → Except (Err × Repo) Repo
  | Op.add path fileData => add E st path (some fileData)
  | Op.commit message timeStamp => commit E st message timeStamp

/-- The commit a call creates when it runs on `st`: its digest and its record
(nothing for add). -/
def created (E : Env) (st : Repo) : Op → List (String × CommitData)
  | Op.add _ _ => []
  | Op.commit message timeStamp =>
    [(E.hashObject (E.stringify (commitData st message timeStamp (st.index.getD []))),
      commitData st message timeStamp (st.index.getD []))]

/-- Runs the calls in order, stopping at the first rejected one.  The result is
the final repository with the commits created, oldest first. -/
def runTrace (E : Env) : List Op → Repo → Except (Err × Repo) (Repo × List (String × CommitData))
  | [], st => .ok (st, [])
  | op :: ops, st =>
    match step E st op with
    | .error e => .error e
    | .ok st1 =>
      match runTrace E ops st1 with
      | .error e => .error e
      | .ok (st2, made) => .ok (st2, created E st op ++ made)

/-- Number of commit calls in a sequence. -/
def countCommits : List Op → Nat
  | [] => 0
  | Op.add _ _ :: ops => countCommits ops
  | Op.commit _ _ :: ops => countCommits ops + 1

/-- What log prints for one commit. -/
def logEntry (p : String × CommitData) : List Out :=
  [Out.separator, Out.commitInfo p.1 p.2.timeStamp p.2.message]

/-- A command of the program with its effect on the repository and its
result.  The methods log and showCommitDiff only read. -/
inductive Cmd where
  | change (op : Op)
  | log
  | showCommitDiff (commitHash : String)
deriving DecidableEq, Repr

/-- Runs one command: the repository it leaves and what it returns. -/
def exec (E : Env) (fuel : Nat) (st : Repo) : Cmd → Repo × Except Err (List Out)
  | Cmd.change op =>
    match step E st op with
    | .ok st1 => (st1, .ok [])
    | .error (e, st1) => (st1, .error e)
  | Cmd.log => (st, log E fuel st)
  | Cmd.showCommitDiff commitHash => (st, showCommitDiff E st commitHash)

/-- The digest the walk of log stands at after following `k` links from the
value `cur`, `none` when the walk has ended or cannot get that far. -/
def linkAt (E : Env) (objects : Files) : Nat → Option String → Option String
  | _, none => none
  | 0, some h => if h = "" then none else some h
  | k + 1, some h =>
    if h = "" then none
    else
      match objects h with
      | none => none
      | some text =>
        match E.parse text with
        | Parsed.commit data => linkAt E objects k data.parentCommit
        | _ => none

/-! ## A concrete environment

An instance of `Env` on which the laws assumed of the libraries hold, used to
run the operations on concrete repositories.  The digest keeps its input
behind a tag, so it is injective; the text of a commit record writes every
string after its length in unary. -/

namespace Demo

/-- A string after its length in unary. -/
def encStr (s : String) : List Char :=
  List.replicate s.data.length '1' ++ ':' :: s.data

/-- Counts the leading marks and returns the rest. -/
def countOnes : List Char → Nat × List Char
  | [] => (0, [])
  | c :: cs => if c = '1' then ((countOnes cs).1 + 1, (countOnes cs).2) else (0, c :: cs)

/-- Reads back a string written by `encStr`. -/
def decStr (cs : List Char) : Option (String × List Char) :=
  match (countOnes cs).2 with
  | [] => none
  | c :: rest =>
    if c = ':' ∧ (countOnes cs).1 ≤ rest.length then
      some (String.mk (rest.take (countOnes cs).1), rest.drop (countOnes cs).1)
    else none

/-- The entries of a commit, each after a comma, closed by a full stop. -/
def encEntries : List StagingEntry → List Char
  | [] => ['.']
  | e :: es => ',' :: (encStr e.path ++ (encStr e.hash ++ encEntries es))

/-- Reads back the entries written by `encEntries`. -/
def decEntries : Nat → List Char → Option (List StagingEntry × List Char)
  | 0, _ => none
  | _ + 1, [] => none
  | fuel + 1, c :: cs =>
    if c = '.' then some ([], cs)
    else if c = ',' then
      match decStr cs with
      | none => none
      | some (p, r1) =>
        match decStr r1 with
        | none => none
        | some (h, r2) =>
          match decEntries fuel r2 with
          | none => none
          | some (es, r3) => some ({ path := p, hash := h } :: es, r3)
    else none

/-- The field parentCommit: null or a string. -/
def encParent : Option String → List Char
  | none => ['n']
  | some p => 's' :: encStr p

/-- Reads back the field written by `encParent`. -/
def decParent : List Char → Option (Option String)
  | [] => none
  | c :: cs =>
    if c = 'n' then (if cs = [] then some none else none)
    else if c = 's' then
      match decStr cs with
      | some (p, []) => some (some p)
      | _ => none
    else none

/-- Text of a commit record. -/
def encCommit (c : CommitData) : List Char :=
  'c' :: (encStr c.timeStamp ++ (encStr c.message ++ (encEntries c.files ++ encParent c.parentCommit)))

/-- Reads back a commit record. -/
def decCommit : List Char → Option CommitData
  | [] => none
  | c :: cs =>
    if c = 'c' then
      match decStr cs with
      | none => none
      | some (ts, r1) =>
        match decStr r1 with
        | none => none
        | some (m, r2) =>
          match decEntries (r2.length + 1) r2 with
          | none => none
          | some (fs, r3) =>
            match decParent r3 with
            | none => none
            | some p => some { timeStamp := ts, message := m, files := fs, parentCommit := p }
    else none

/-- The parser of the concrete environment. -/
def parse (s : String) : Parsed :=
  if s = "null" then Parsed.null
  else
    match decCommit s.data with
    | some c => Parsed.commit c
    | none => Parsed.parseError

/-- A line diff that reports the old text as removed and the new text as
added when they differ. -/
def diffLines (old new : String) : List DiffPart :=
  if old = new then [{ added := false, removed := false, value := old }]
  else [{ added := false, removed := true, value := old },
        { added := true, removed := false, value := new }]

/-- The concrete environment. -/
def env : Env :=
  { hashObject := fun s => "sha1:" ++ s,
    stringify := fun c => String.mk (encCommit c),
    parse := parse,
    diffLines := diffLines }

end Demo

/-- The repository a call leaves, whether it returned or was rejected. -/
def repoAfter : Except (Err × Repo) Repo → Repo
  | .ok st => st
  | .error (_, st) => st

/-- A repository right after init with one staged file. -/
def Demo.staged : Repo :=
  { objects := writeFile (fun _ => none) "sha1:hello" "hello",
    head := some "",
    index := some [{ path := "a.txt", hash := "sha1:hello" }] }

/-- A repository whose object named by the digest of the text new holds
another text. -/
def Demo.damaged : Repo :=
  { objects := writeFile (fun _ => none) "sha1:new" "old",
    head := some "",
    index := some [] }

/-- The record of the parent of a commit as showCommitDiff obtains it: `none`
when parentCommit is null or the empty string (the commit has no parent), and
also when the object of that name is missing or holds no commit record. -/
def parentRecord (E : Env) (st : Repo) (c : CommitData) : Option CommitData :=
  match c.parentCommit with
  | none => none
  | some p =>
    if p = "" then none
    else
      match st.objects p with
      | none => none
      | some text =>
        match E.parse text with
        | Parsed.commit pc => some pc
        | _ => none

/-- The content stored under a digest (the empty text when there is none). -/
def blob (st : Repo) (fileHash : String) : String :=
  (st.objects fileHash).getD ""

/-- Report for one entry in the words of the specification.  The argument is
the files list of the parent, `none` when the commit has no parent.  Without
parent the entry belongs to the first commit; with a parent that lists no entry
of the same path it is a new file; otherwise the diff of the blob of the first
such entry of the parent and the blob of the entry is reported, old text
first. -/
def specReport (E : Env) (st : Repo) (parentFiles : Option (List StagingEntry))
    (f : StagingEntry) : List Out :=
  [Out.file f.path, Out.content (blob st f.hash)] ++
    match parentFiles with
    | none => [Out.firstCommit]
    | some files =>
      match files.find? (fun e => decide (e.path = f.path)) with
      | none => [Out.newFile]
      | some e =>
        Out.diffHeader :: (E.diffLines (blob st e.hash) (blob st f.hash)).map printPart

/-- The commit record of the second commit of `Demo.history`. -/
def Demo.second : CommitData :=
  { timeStamp := "t2", message := "second",
    files := [{ path := "a.txt", hash := "sha1:hello world" },
              { path := "b.txt", hash := "sha1:bee" }],
    parentCommit := some "c1" }

/-- The commit record of the first commit of `Demo.history`. -/
def Demo.first : CommitData :=
  { timeStamp := "t1", message := "first",
    files := [{ path := "a.txt", hash := "sha1:hello" }],
    parentCommit := some "" }

/-- A repository with two commits, stored under the names c1 and c2: the
second changes a.txt and brings b.txt. -/
def Demo.history : Repo :=
  { objects := fun n =>
      if n = "c2" then some (Demo.env.stringify Demo.second)
      else if n = "c1" then some (Demo.env.stringify Demo.first)
      else if n = "sha1:hello" then some "hello"
      else if n = "sha1:hello world" then some "hello world"
      else if n = "sha1:bee" then some "bee"
      else none,
    head := some "c2",
    index := some [] }

/-- A repository whose only commit names a parent that has no object. -/
def Demo.dangling : Repo :=
  { objects := fun n =>
      if n = "c2" then some (Demo.env.stringify Demo.second) else none,
    head := some "c2",
    index := some [] }

/-- Every hash of the list names an object of the repository. -/
def AllStored (st : Repo) (files : List StagingEntry) : Prop :=
  ∀ f ∈ files, (st.objects f.hash).isSome

/-- The value, when it is a string that is not empty, names an object of the
repository. -/
def LinkStored (st : Repo) (link : Option String) : Prop :=
  ∀ h, link = some h → h ≠ "" → (st.objects h).isSome

/-- Referential integrity of the staging index and of HEAD. -/
def Intact (st : Repo) : Prop :=
  (∃ I, st.index = some I ∧ AllStored st I) ∧ LinkStored st (getCurrentHead st)

/-- Digest of the newest commit of a history listed newest first, the empty
string when there is none. -/
def topDigest : List (String × CommitData) → String
  | [] => ""
  | p :: _ => p.1

/-- A history listed newest first in which every commit is named by the digest
of its text and records the digest of the next older one, the oldest recording
the empty string. -/
def ChainOK (E : Env) : List (String × CommitData) → Prop
  | [] => True
  | p :: rest =>
    p.2.parentCommit = some (topDigest rest) ∧ p.1 = E.hashObject (E.stringify p.2) ∧
      ChainOK E rest

/-- The repository holds the history `hist` (newest first): the index file
exists, HEAD is the newest digest, and every commit is stored under its
digest. -/
def Holds (E : Env) (st : Repo) (hist : List (String × CommitData)) : Prop :=
  (∃ I, st.index = some I) ∧ st.head = some (topDigest hist) ∧ ChainOK E hist ∧
    ∀ p ∈ hist, st.objects p.1 = some (E.stringify p.2)

/-! ## Working files as bytes

The method add reads the working file with the encoding utf-8: the bytes of
the file are decoded, and every sequence that is not UTF-8 becomes the
replacement character.  The call fs.writeFile stores a text as its UTF-8
bytes.  Bytes are natural numbers below 256. -/

/-- State of the UTF-8 decoder between two bytes: how many continuation bytes
are still expected, the bits read so far, and the range allowed for the next
byte. -/
structure Utf8State where
  remaining : Nat
  codePoint : Nat
  lower : Nat
  upper : Nat
deriving DecidableEq, Repr

/-- The decoder between two characters. -/
def utf8Start : Utf8State :=
  { remaining := 0, codePoint := 0, lower := 0x80, upper := 0xBF }

/-- The character U+FFFD. -/
def replacementChar : Char := Char.ofNat 0xFFFD

/-- A byte read between two characters: a character of one byte, the first
byte of a longer one, or a byte that starts nothing. -/
def utf8Lead (b : Nat) : Utf8State × List Char :=
  if b < 0x80 then (utf8Start, [Char.ofNat b])
  else if 0xC2 ≤ b ∧ b ≤ 0xDF then
    ({ remaining := 1, codePoint := b - 0xC0, lower := 0x80, upper := 0xBF }, [])
  else if 0xE0 ≤ b ∧ b ≤ 0xEF then
    ({ remaining := 2, codePoint := b - 0xE0,
       lower := if b = 0xE0 then 0xA0 else 0x80,
       upper := if b = 0xED then 0x9F else 0xBF }, [])
  else if 0xF0 ≤ b ∧ b ≤ 0xF4 then
    ({ remaining := 3, codePoint := b - 0xF0,
       lower := if b = 0xF0 then 0x90 else 0x80,
       upper := if b = 0xF4 then 0x8F else 0xBF }, [])
  else (utf8Start, [replacementChar])

/-- One byte through the decoder.  A byte outside the allowed range ends the
character under way with the replacement character and is read again as a
first byte. -/
def utf8Feed (s : Utf8State) (b : Nat) : Utf8State × List Char :=
  if s.remaining = 0 then utf8Lead b
  else if b < s.lower ∨ s.upper < b then ((utf8Lead b).1, replacementChar :: (utf8Lead b).2)
  else if s.remaining = 1 then (utf8Start, [Char.ofNat (s.codePoint * 64 + (b - 0x80))])
  else ({ remaining := s.remaining - 1, codePoint := s.codePoint * 64 + (b - 0x80),
          lower := 0x80, upper := 0xBF }, [])

/-- The characters decoded from a list of bytes; a character cut by the end
of the bytes becomes the replacement character. -/
def utf8DecodeFrom : Utf8State → List Nat → List Char
  | s, [] => if s.remaining = 0 then [] else [replacementChar]
  | s, b :: bs => (utf8Feed s b).2 ++ utf8DecodeFrom (utf8Feed s b).1 bs

/-- The text read from bytes with the encoding utf-8. -/
def utf8Decode (bytes : List Nat) : String :=
  String.mk (utf8DecodeFrom utf8Start bytes)

/-- The UTF-8 bytes of a character. -/
def utf8EncodeChar (c : Char) : List Nat :=
  if c.toNat < 0x80 then [c.toNat]
  else if c.toNat < 0x800 then [0xC0 + c.toNat / 64, 0x80 + c.toNat % 64]
  else if c.toNat < 0x10000 then
    [0xE0 + c.toNat / 4096, 0x80 + c.toNat / 64 % 64, 0x80 + c.toNat % 64]
  else [0xF0 + c.toNat / 262144, 0x80 + c.toNat / 4096 % 64, 0x80 + c.toNat / 64 % 64,
    0x80 + c.toNat % 64]

/-- The bytes fs.writeFile stores for a text. -/
def utf8Encode (s : String) : List Nat :=
  s.data.flatMap utf8EncodeChar

/-- The call fs.readFile with the encoding utf-8 on the working file, given
the bytes of the file (`none` when it cannot be read). -/
def readFileUtf8 (file : Option (List Nat)) : Option String :=
  file.map utf8Decode

/-- Method add on a working file given by its bytes. -/
def addFile (E : Env) (st : Repo) (fileToBeAdded : String) (file : Option (List Nat)) :
    Except (Err × Repo) Repo :=
  add E st fileToBeAdded (readFileUtf8 file)

/-- The bytes of an object file. -/
def objectBytes (st : Repo) (name : String) : Option (List Nat) :=
  (st.objects name).map utf8Encode

/-- Every stored object whose text is a commit record has the hashes of its
files and its parentCommit, when that is not empty, stored too, unless the
text is the content of a working file that an add call of `all` stored. -/
def RecordsIntact (E : Env) (all : List Op) (st : Repo) : Prop :=
  ∀ name text c, st.objects name = some text → E.parse text = Parsed.commit c →
    (AllStored st c.files ∧ LinkStored st c.parentCommit) ∨ ∃ path, Op.add path text ∈ all

/-! ## Laws of the concrete environment -/

namespace Demo

theorem countOnes_replicate (n : Nat) (r : List Char) :
    countOnes (List.replicate n '1' ++ ':' :: r) = (n, ':' :: r) := by
  induction n with
  | zero => simp [countOnes]
  | succ k ih => simp [List.replicate_succ, countOnes, ih]

theorem decStr_encStr (s : String) (r : List Char) :
    decStr (encStr s ++ r) = some (s, r) := by
  have h : encStr s ++ r = List.replicate s.data.length '1' ++ ':' :: (s.data ++ r) := by
    simp [encStr]
  rw [h]
  simp [decStr, countOnes_replicate]

theorem decEntries_encEntries (es : List StagingEntry) (r : List Char) (fuel : Nat)
    (h : es.length < fuel) : decEntries fuel (encEntries es ++ r) = some (es, r) := by
  induction es generalizing fuel with
  | nil =>
    cases fuel with
    | zero => omega
    | succ k => simp [encEntries, decEntries]
  | cons e es ih =>
    cases fuel with
    | zero => omega
    | succ k =>
      have hk : es.length < k := by simpa using h
      simp [encEntries, decEntries, List.append_assoc, decStr_encStr, ih k hk]

theorem length_le_encEntries (es : List StagingEntry) : es.length < (encEntries es).length := by
  induction es with
  | nil => simp [encEntries]
  | cons e es ih => simp [encEntries]; omega

theorem decParent_encParent (p : Option String) : decParent (encParent p) = some p := by
  cases p with
  | none => simp [encParent, decParent]
  | some q =>
    have h := decStr_encStr q []
    simp only [List.append_nil] at h
    simp [encParent, decParent, h]

theorem decCommit_encCommit (c : CommitData) : decCommit (encCommit c) = some c := by
  have hlen : c.files.length <
      (encEntries c.files).length + (encParent c.parentCommit).length + 1 := by
    have := length_le_encEntries c.files
    omega
  simp [encCommit, decCommit, decStr_encStr, decEntries_encEntries _ _ _ hlen,
    decParent_encParent]

theorem roundTrip : env.RoundTrip := by
  intro c
  have hne : String.mk (encCommit c) ≠ "null" := by
    intro h
    have h2 := congrArg String.data h
    simp [encCommit] at h2
  show parse (String.mk (encCommit c)) = Parsed.commit c
  simp [parse, hne, decCommit_encCommit]

theorem parsesNull : env.ParsesNull := by
  show parse "null" = Parsed.null
  simp [parse]

theorem hash_injective : Function.Injective env.hashObject := by
  intro a b h
  have h2 : ("sha1:" ++ a).data = ("sha1:" ++ b).data := congrArg String.data h
  simp only [String.data_append, List.append_cancel_left_eq] at h2
  exact String.ext h2

theorem hash_ne_empty (s : String) : env.hashObject s ≠ "" := by
  intro h
  have h2 : ("sha1:" ++ s).data = ("" : String).data := congrArg String.data h
  simp at h2

end Demo

/-! ## Decoding the bytes of a text -/

theorem char_valid (c : Char) : c.toNat < 0xD800 ∨ (0xDFFF < c.toNat ∧ c.toNat < 0x110000) :=
  c.valid

theorem utf8DecodeFrom_cons (s : Utf8State) (b : Nat) (bs : List Nat) :
    utf8DecodeFrom s (b :: bs) = (utf8Feed s b).2 ++ utf8DecodeFrom (utf8Feed s b).1 bs := rfl

theorem utf8Feed_start (b : Nat) : utf8Feed utf8Start b = utf8Lead b := by
  simp [utf8Feed, utf8Start]

theorem utf8Feed_last (cp lo hi b : Nat) (h1 : lo ≤ b) (h2 : b ≤ hi) :
    utf8Feed ⟨1, cp, lo, hi⟩ b = (utf8Start, [Char.ofNat (cp * 64 + (b - 0x80))]) := by
  have h : ¬ (b < lo ∨ hi < b) := by omega
  simp [utf8Feed, h]

theorem utf8Feed_more (k cp lo hi b : Nat) (h1 : lo ≤ b) (h2 : b ≤ hi) :
    utf8Feed ⟨k + 2, cp, lo, hi⟩ b = (⟨k + 1, cp * 64 + (b - 0x80), 0x80, 0xBF⟩, []) := by
  have h : ¬ (b < lo ∨ hi < b) := by omega
  simp [utf8Feed, h]

theorem utf8Lead_one (b : Nat) (h : b < 0x80) : utf8Lead b = (utf8Start, [Char.ofNat b]) := by
  simp [utf8Lead, h]

theorem utf8Lead_two (b : Nat) (h1 : 0xC2 ≤ b) (h2 : b ≤ 0xDF) :
    utf8Lead b = (⟨1, b - 0xC0, 0x80, 0xBF⟩, []) := by
  have h : ¬ b < 0x80 := by omega
  simp [utf8Lead, h, h1, h2]

theorem utf8Lead_three (b : Nat) (h1 : 0xE0 ≤ b) (h2 : b ≤ 0xEF) :
    utf8Lead b =
      (⟨2, b - 0xE0, if b = 0xE0 then 0xA0 else 0x80, if b = 0xED then 0x9F else 0xBF⟩, []) := by
  have h : ¬ b < 0x80 := by omega
  have h3 : ¬ (0xC2 ≤ b ∧ b ≤ 0xDF) := by omega
  simp only [utf8Lead, h, h3, h1, h2, if_false, and_self, if_true]

theorem utf8Lead_four (b : Nat) (h1 : 0xF0 ≤ b) (h2 : b ≤ 0xF4) :
    utf8Lead b =
      (⟨3, b - 0xF0, if b = 0xF0 then 0x90 else 0x80, if b = 0xF4 then 0x8F else 0xBF⟩, []) := by
  have h : ¬ b < 0x80 := by omega
  have h3 : ¬ (0xC2 ≤ b ∧ b ≤ 0xDF) := by omega
  have h4 : ¬ (0xE0 ≤ b ∧ b ≤ 0xEF) := by omega
  simp only [utf8Lead, h, h3, h4, h1, h2, if_false, and_self, if_true]

theorem utf8DecodeFrom_encodeChar (c : Char) (rest : List Nat) :
    utf8DecodeFrom utf8Start (utf8EncodeChar c ++ rest) = c :: utf8DecodeFrom utf8Start rest := by
  have hv := char_valid c
  have hc : Char.ofNat c.toNat = c := Char.ofNat_toNat c
  revert hv hc
  unfold utf8EncodeChar
  generalize c.toNat = n
  intro hv hc
  by_cases h1 : n < 0x80
  · simp only [h1, if_true, List.singleton_append, utf8DecodeFrom_cons, utf8Feed_start,
      utf8Lead_one n h1, hc, List.singleton_append]
  · by_cases h2 : n < 0x800
    · simp only [h1, h2, if_false, if_true, List.cons_append, List.nil_append,
        utf8DecodeFrom_cons, utf8Feed_start]
      rw [utf8Lead_two _ (by omega) (by omega)]
      simp only [List.nil_append]
      rw [utf8Feed_last _ _ _ _ (by omega) (by omega)]
      have : (0xC0 + n / 64 - 0xC0) * 64 + (0x80 + n % 64 - 0x80) = n := by omega
      simp only [this, hc, List.singleton_append]
    · by_cases h3 : n < 0x10000
      · simp only [h1, h2, h3, if_false, if_true, List.cons_append, List.nil_append,
          utf8DecodeFrom_cons, utf8Feed_start]
        rw [utf8Lead_three _ (by omega) (by omega)]
        simp only [List.nil_append]
        rw [utf8Feed_more 0 _ _ _ _ (by split <;> omega) (by split <;> omega)]
        simp only [List.nil_append]
        rw [utf8Feed_last _ _ _ _ (by omega) (by omega)]
        have : ((0xE0 + n / 4096 - 0xE0) * 64 + (0x80 + n / 64 % 64 - 0x80)) * 64 +
            (0x80 + n % 64 - 0x80) = n := by omega
        simp only [this, hc, List.singleton_append]
      · simp only [h1, h2, h3, if_false, List.cons_append, List.nil_append,
          utf8DecodeFrom_cons, utf8Feed_start]
        rw [utf8Lead_four _ (by omega) (by omega)]
        simp only [List.nil_append]
        rw [utf8Feed_more 1 _ _ _ _ (by split <;> omega) (by split <;> omega)]
        simp only [List.nil_append]
        rw [utf8Feed_more 0 _ _ _ _ (by omega) (by omega)]
        simp only [List.nil_append]
        rw [utf8Feed_last _ _ _ _ (by omega) (by omega)]
        have : (((0xF0 + n / 262144 - 0xF0) * 64 + (0x80 + n / 4096 % 64 - 0x80)) * 64 +
            (0x80 + n / 64 % 64 - 0x80)) * 64 + (0x80 + n % 64 - 0x80) = n := by omega
        simp only [this, hc, List.singleton_append]

theorem utf8DecodeFrom_encode (l : List Char) :
    utf8DecodeFrom utf8Start (l.flatMap utf8EncodeChar) = l := by
  induction l with
  | nil => simp [utf8DecodeFrom, utf8Start]
  | cons c cs ih => rw [List.flatMap_cons, utf8DecodeFrom_encodeChar, ih]

theorem utf8Decode_encode (s : String) : utf8Decode (utf8Encode s) = s := by
  simp [utf8Decode, utf8Encode, utf8DecodeFrom_encode]

/-! ## Properties of the operations -/

theorem writeFile_same (fs : Files) (name data : String) :
    writeFile fs name data name = some data := by
  simp [writeFile]

theorem writeFile_other (fs : Files) (name data k : String) (h : k ≠ name) :
    writeFile fs name data k = fs k := by
  simp [writeFile, h]

theorem writeFile_idem (fs : Files) (name data : String) (h : fs name = some data) :
    writeFile fs name data = fs := by
  funext k
  by_cases hk : k = name
  · subst hk; simp [writeFile, h]
  · simp [writeFile, hk]

theorem writeFile_isSome (fs : Files) (name data k : String) (h : (fs k).isSome) :
    (writeFile fs name data k).isSome := by
  by_cases hk : k = name
  · simp [writeFile, hk]
  · simpa [writeFile, hk] using h

theorem add_ok (E : Env) (st : Repo) (I : List StagingEntry) (path C : String)
    (hI : st.index = some I) :
    add E st path (some C) =
      .ok { objects := writeFile st.objects (E.hashObject C) C, head := st.head,
            index := some (I ++ [{ path := path, hash := E.hashObject C }]) } := by
  simp [add, updateStagingArea, hI]

theorem commit_ok (E : Env) (st : Repo) (I : List StagingEntry) (message timeStamp : String)
    (hI : st.index = some I) :
    commit E st message timeStamp =
      .ok { objects := writeFile st.objects
              (E.hashObject (E.stringify (commitData st message timeStamp I)))
              (E.stringify (commitData st message timeStamp I)),
            head := some (E.hashObject (E.stringify (commitData st message timeStamp I))),
            index := some [] } := by
  simp [commit, hI]

/-- C1: for every repository with staging index I and HEAD file content h
(`none` when the file is missing) and every message, commit returns;
afterwards HEAD holds the digest of the text of the commit record, the object
of that name holds that text, which parses to a record whose files are I in
order and whose parentCommit is h, and the staging index is empty. -/
theorem commit_snapshots_index (E : Env) (hrt : E.RoundTrip) (st : Repo)
    (I : List StagingEntry) (message timeStamp : String) (hI : st.index = some I) :
    ∃ st1 c,
      commit E st message timeStamp = .ok st1 ∧
      st1.head = some (E.hashObject (E.stringify c)) ∧
      st1.objects (E.hashObject (E.stringify c)) = some (E.stringify c) ∧
      E.parse (E.stringify c) = Parsed.commit c ∧
      c.files = I ∧ c.parentCommit = st.head ∧
      c.message = message ∧ c.timeStamp = timeStamp ∧
      st1.index = some [] := by
  refine ⟨{ objects := writeFile st.objects
                (E.hashObject (E.stringify (commitData st message timeStamp I)))
                (E.stringify (commitData st message timeStamp I)),
            head := some (E.hashObject (E.stringify (commitData st message timeStamp I))),
            index := some [] },
    commitData st message timeStamp I, ?_, rfl, ?_, hrt _, rfl, rfl, rfl, rfl, rfl⟩
  · simp [commit, hI]
  · simp [writeFile]

theorem commit_snapshots_index_witness :
    Demo.env.RoundTrip ∧ Demo.staged.index = some [{ path := "a.txt", hash := "sha1:hello" }] ∧
    ∃ st1 c,
      commit Demo.env Demo.staged "first" "2024-01-01T00:00:00.000Z" = .ok st1 ∧
      st1.head = some (Demo.env.hashObject (Demo.env.stringify c)) ∧
      st1.objects (Demo.env.hashObject (Demo.env.stringify c)) = some (Demo.env.stringify c) ∧
      Demo.env.parse (Demo.env.stringify c) = Parsed.commit c ∧
      c.files = [{ path := "a.txt", hash := "sha1:hello" }] ∧
      c.parentCommit = Demo.staged.head ∧
      c.message = "first" ∧ c.timeStamp = "2024-01-01T00:00:00.000Z" ∧
      st1.index = some [] :=
  ⟨Demo.roundTrip, rfl,
    commit_snapshots_index Demo.env Demo.roundTrip Demo.staged _ "first"
      "2024-01-01T00:00:00.000Z" rfl⟩

theorem add_stores_text (E : Env) (st : Repo) (path C : String) :
    (repoAfter (add E st path (some C))).objects (E.hashObject C) = some C := by
  cases hI : st.index <;> simp [add, updateStagingArea, hI, repoAfter, writeFile]

/-- C3, as the code has it: add reads the working file as UTF-8 text.  When
the bytes of the file are the UTF-8 encoding of a text C, getFileContent on
hashObject(C) returns exactly C afterwards and the object file holds the bytes
of the working file, whatever the repository was before.  For any bytes, what
is stored and returned is the decoded text. -/
theorem add_roundtrip_utf8_text (E : Env) (st : Repo) (path C : String) :
    getFileContent (repoAfter (addFile E st path (some (utf8Encode C)))) (E.hashObject C) =
      .ok C ∧
    objectBytes (repoAfter (addFile E st path (some (utf8Encode C)))) (E.hashObject C) =
      some (utf8Encode C) ∧
    ∀ bytes : List Nat,
      getFileContent (repoAfter (addFile E st path (some bytes)))
        (E.hashObject (utf8Decode bytes)) = .ok (utf8Decode bytes) := by
  have h := add_stores_text E st path C
  refine ⟨?_, ?_, ?_⟩
  · simp [addFile, readFileUtf8, utf8Decode_encode, getFileContent, h]
  · simp [addFile, readFileUtf8, utf8Decode_encode, objectBytes, h]
  · intro bytes
    simp [addFile, readFileUtf8, getFileContent, add_stores_text E st path (utf8Decode bytes)]

/-- C3 fails as stated: for a working file with the bytes ff fe 41, which are
not UTF-8, the text getFileContent returns after add is two replacement
characters and the letter A, and the object file holds the bytes
ef bf bd ef bf bd 41, not the content of the working file. -/
theorem add_replaces_invalid_bytes :
    getFileContent (repoAfter (addFile Demo.env Demo.staged "b.bin" (some [255, 254, 65])))
        (Demo.env.hashObject (utf8Decode [255, 254, 65])) =
      .ok (String.mk [Char.ofNat 0xFFFD, Char.ofNat 0xFFFD, 'A']) ∧
    objectBytes (repoAfter (addFile Demo.env Demo.staged "b.bin" (some [255, 254, 65])))
        (Demo.env.hashObject (utf8Decode [255, 254, 65])) =
      some [239, 191, 189, 239, 191, 189, 65] ∧
    utf8Encode (String.mk [Char.ofNat 0xFFFD, Char.ofNat 0xFFFD, 'A']) ≠ [255, 254, 65] := by
  refine ⟨?_, ?_, ?_⟩
  · rfl
  · decide
  · decide

/-- C4, as the code has it: storing C never checks whether the object exists.
After add, and after commit for the text of its record, the object named by
the digest holds the text just written and every other object is as before;
the objects directory is unchanged when the object already held that text. -/
theorem store_rewrites_object (E : Env) (st : Repo) (path C message timeStamp : String)
    (I : List StagingEntry) :
    ((repoAfter (add E st path (some C))).objects (E.hashObject C) = some C ∧
      (∀ k, k ≠ E.hashObject C →
        (repoAfter (add E st path (some C))).objects k = st.objects k) ∧
      (st.objects (E.hashObject C) = some C →
        (repoAfter (add E st path (some C))).objects = st.objects)) ∧
    ((repoAfter (commit E { st with index := some I } message timeStamp)).objects
        (E.hashObject (E.stringify (commitData st message timeStamp I))) =
        some (E.stringify (commitData st message timeStamp I)) ∧
      (∀ k, k ≠ E.hashObject (E.stringify (commitData st message timeStamp I)) →
        (repoAfter (commit E { st with index := some I } message timeStamp)).objects k =
          st.objects k) ∧
      (st.objects (E.hashObject (E.stringify (commitData st message timeStamp I))) =
          some (E.stringify (commitData st message timeStamp I)) →
        (repoAfter (commit E { st with index := some I } message timeStamp)).objects =
          st.objects)) := by
  have hadd : (repoAfter (add E st path (some C))).objects =
      writeFile st.objects (E.hashObject C) C := by
    cases hI : st.index <;> simp [add, updateStagingArea, hI, repoAfter]
  have hcommit : (repoAfter (commit E { st with index := some I } message timeStamp)).objects =
      writeFile st.objects (E.hashObject (E.stringify (commitData st message timeStamp I)))
        (E.stringify (commitData st message timeStamp I)) := by
    simp [commit, repoAfter, commitData, getCurrentHead]
  rw [hadd, hcommit]
  exact ⟨⟨writeFile_same _ _ _, fun k hk => writeFile_other _ _ _ k hk,
      fun h => writeFile_idem _ _ _ h⟩,
    ⟨writeFile_same _ _ _, fun k hk => writeFile_other _ _ _ k hk,
      fun h => writeFile_idem _ _ _ h⟩⟩

/-- C4 fails as stated: the object named by the digest of the text new holds
the text old, and add of a file with content new replaces it. -/
theorem add_overwrites_existing_object :
    Demo.damaged.objects (Demo.env.hashObject "new") = some "old" ∧
    (repoAfter (add Demo.env Demo.damaged "a.txt" (some "new"))).objects
      (Demo.env.hashObject "new") ≠ some "old" := by
  constructor
  · decide
  · decide

/-- C5, as the code has it: init writes the empty string to HEAD, so on a
repository without commits getCurrentHead returns the empty string, and the
first commit, whatever objects and staged entries there are, records the empty
string as parentCommit. -/
theorem first_commit_parent_is_empty_string (E : Env) (objects : Files)
    (I : List StagingEntry) (message timeStamp : String) :
    getCurrentHead (init Repo.blank) = some "" ∧
    ∃ st1,
      commit E { objects := objects, head := (init Repo.blank).head, index := some I }
        message timeStamp = .ok st1 ∧
      st1.head = some (E.hashObject (E.stringify
        { timeStamp := timeStamp, message := message, files := I, parentCommit := some "" })) ∧
      st1.objects (E.hashObject (E.stringify
        { timeStamp := timeStamp, message := message, files := I, parentCommit := some "" })) =
        some (E.stringify
        { timeStamp := timeStamp, message := message, files := I, parentCommit := some "" }) := by
  refine ⟨rfl, _, rfl, ?_, ?_⟩
  · simp [commitData, getCurrentHead, init, Repo.blank]
  · simp [commitData, getCurrentHead, init, Repo.blank, writeFile]

/-- C5 fails as stated: after init, getCurrentHead does not return null, and
the record of the first commit does not hold null as parentCommit. -/
theorem fresh_head_is_not_null :
    getCurrentHead (init Repo.blank) ≠ none ∧
    (commitData (init Repo.blank) "first" "2024-01-01T00:00:00.000Z" []).parentCommit ≠ none := by
  constructor
  · decide
  · decide

/-- C7: add ends with the staging index it found followed by the one entry of
the path with the digest of the content read; earlier entries stay in order,
those of the same path too, so two adds of one path leave two entries and the
record of the next commit lists both. -/
theorem add_appends_entry (E : Env) (st : Repo) (I : List StagingEntry)
    (path C C2 message timeStamp : String) (hI : st.index = some I) :
    (∃ st1, add E st path (some C) = .ok st1 ∧
      st1.index = some (I ++ [{ path := path, hash := E.hashObject C }]) ∧
      st1.head = st.head) ∧
    (∃ st1 st2 st3, add E st path (some C) = .ok st1 ∧
      add E st1 path (some C2) = .ok st2 ∧
      st2.index = some (I ++ [{ path := path, hash := E.hashObject C },
        { path := path, hash := E.hashObject C2 }]) ∧
      commit E st2 message timeStamp = .ok st3 ∧
      st3.objects (E.hashObject (E.stringify
          { timeStamp := timeStamp, message := message,
            files := I ++ [{ path := path, hash := E.hashObject C },
              { path := path, hash := E.hashObject C2 }],
            parentCommit := getCurrentHead st })) =
        some (E.stringify
          { timeStamp := timeStamp, message := message,
            files := I ++ [{ path := path, hash := E.hashObject C },
              { path := path, hash := E.hashObject C2 }],
            parentCommit := getCurrentHead st })) := by
  have h1 := add_ok E st I path C hI
  have h2 := add_ok E _ _ path C2
    (rfl : (Repo.mk (writeFile st.objects (E.hashObject C) C) st.head
      (some (I ++ [{ path := path, hash := E.hashObject C }]))).index = _)
  have h3 := commit_ok E _ _ message timeStamp
    (rfl : (Repo.mk (writeFile (writeFile st.objects (E.hashObject C) C) (E.hashObject C2) C2)
      st.head (some ((I ++ [{ path := path, hash := E.hashObject C }]) ++
        [{ path := path, hash := E.hashObject C2 }]))).index = _)
  constructor
  · exact ⟨_, h1, rfl, rfl⟩
  · refine ⟨_, _, _, h1, h2, by simp, h3, ?_⟩
    simp [commitData, getCurrentHead, writeFile]

theorem add_appends_entry_witness :
    Demo.staged.index = some [{ path := "a.txt", hash := "sha1:hello" }] ∧
    ((∃ st1, add Demo.env Demo.staged "a.txt" (some "world") = .ok st1 ∧
      st1.index = some ([{ path := "a.txt", hash := "sha1:hello" }] ++
        [{ path := "a.txt", hash := Demo.env.hashObject "world" }]) ∧
      st1.head = Demo.staged.head) ∧
    (∃ st1 st2 st3, add Demo.env Demo.staged "a.txt" (some "world") = .ok st1 ∧
      add Demo.env st1 "a.txt" (some "again") = .ok st2 ∧
      st2.index = some ([{ path := "a.txt", hash := "sha1:hello" }] ++
        [{ path := "a.txt", hash := Demo.env.hashObject "world" },
         { path := "a.txt", hash := Demo.env.hashObject "again" }]) ∧
      commit Demo.env st2 "second" "t" = .ok st3 ∧
      st3.objects (Demo.env.hashObject (Demo.env.stringify
          { timeStamp := "t", message := "second",
            files := [{ path := "a.txt", hash := "sha1:hello" }] ++
              [{ path := "a.txt", hash := Demo.env.hashObject "world" },
               { path := "a.txt", hash := Demo.env.hashObject "again" }],
            parentCommit := getCurrentHead Demo.staged })) =
        some (Demo.env.stringify
          { timeStamp := "t", message := "second",
            files := [{ path := "a.txt", hash := "sha1:hello" }] ++
              [{ path := "a.txt", hash := Demo.env.hashObject "world" },
               { path := "a.txt", hash := Demo.env.hashObject "again" }],
            parentCommit := getCurrentHead Demo.staged }))) :=
  ⟨rfl, add_appends_entry Demo.env Demo.staged _ "a.txt" "world" "again" "second" "t" rfl⟩

/-- C8: when the objects directory has no file of the given name,
showCommitDiff prints the failure of the read and the message Commit not
found and returns: no diff is printed, no error is raised, and HEAD, the
index and the objects are as before. -/
theorem showCommitDiff_missing_commit (E : Env) (hnull : E.ParsesNull) (fuel : Nat)
    (st : Repo) (commitHash : String) (hmiss : st.objects commitHash = none) :
    showCommitDiff E st commitHash = .ok [Out.failedToReadCommit, Out.commitNotFound] ∧
    exec E fuel st (Cmd.showCommitDiff commitHash) =
      (st, .ok [Out.failedToReadCommit, Out.commitNotFound]) := by
  have h : showCommitDiff E st commitHash =
      .ok [Out.failedToReadCommit, Out.commitNotFound] := by
    have hp : E.parse "null" = Parsed.null := hnull
    simp [showCommitDiff, getCommitData, hmiss, jsonParse, hp]
  exact ⟨h, by simp [exec, h]⟩

theorem showCommitDiff_missing_commit_witness :
    Demo.env.ParsesNull ∧ Demo.staged.objects "0173" = none ∧
    showCommitDiff Demo.env Demo.staged "0173" =
      .ok [Out.failedToReadCommit, Out.commitNotFound] ∧
    exec Demo.env 0 Demo.staged (Cmd.showCommitDiff "0173") =
      (Demo.staged, .ok [Out.failedToReadCommit, Out.commitNotFound]) :=
  ⟨Demo.parsesNull, by decide,
    showCommitDiff_missing_commit Demo.env Demo.parsesNull 0 Demo.staged "0173" (by decide)⟩

theorem logWalk_missing (E : Env) (objects : Files) (d : String) (hmiss : objects d = none) :
    ∀ (k : Nat) (cur : Option String), linkAt E objects k cur = some d →
      ∀ fuel, (∀ out, logWalk E objects fuel cur ≠ .ok out) ∧
        (k < fuel → logWalk E objects fuel cur = .error (Err.readFailed (FileRef.object d))) := by
  intro k
  induction k with
  | zero =>
    intro cur hreach fuel
    cases cur with
    | none => simp [linkAt] at hreach
    | some h =>
      by_cases hh : h = ""
      · simp [linkAt, hh] at hreach
      · simp only [linkAt, hh, if_false, Option.some.injEq] at hreach
        subst hreach
        cases fuel with
        | zero => simp [logWalk, hh]
        | succ n => simp [logWalk, hh, hmiss]
  | succ k ih =>
    intro cur hreach fuel
    cases cur with
    | none => simp [linkAt] at hreach
    | some h =>
      by_cases hh : h = ""
      · simp [linkAt, hh] at hreach
      · cases hobj : objects h with
        | none => simp [linkAt, hh, hobj] at hreach
        | some text =>
          cases hp : E.parse text with
          | parseError => simp [linkAt, hh, hobj, hp] at hreach
          | null => simp [linkAt, hh, hobj, hp] at hreach
          | other => simp [linkAt, hh, hobj, hp] at hreach
          | commit data =>
            simp only [linkAt, hh, if_false, hobj, hp] at hreach
            cases fuel with
            | zero => simp [logWalk, hh]
            | succ n =>
              obtain ⟨h1, h2⟩ := ih data.parentCommit hreach n
              constructor
              · intro out
                cases hw : logWalk E objects n data.parentCommit with
                | error e => simp [logWalk, hh, hobj, hp, hw]
                | ok rest => exact absurd hw (h1 rest)
              · intro hlt
                have hw := h2 (by omega)
                simp [logWalk, hh, hobj, hp, hw]

/-- C10: when following the parentCommit links from HEAD arrives, after k
links, at a digest that is not empty and names no object, log is rejected: it
never returns normally, and once the walk is allowed more than k commits the
rejection is the failed read of that object. -/
theorem log_rejects_missing_parent (E : Env) (st : Repo) (k : Nat) (d : String)
    (hreach : linkAt E st.objects k (getCurrentHead st) = some d)
    (hmiss : st.objects d = none) (fuel : Nat) :
    (∀ out, log E fuel st ≠ .ok out) ∧
    (k < fuel → log E fuel st = .error (Err.readFailed (FileRef.object d))) :=
  logWalk_missing E st.objects d hmiss k (getCurrentHead st) hreach fuel

theorem log_rejects_missing_parent_witness :
    linkAt Demo.env Demo.dangling.objects 1 (getCurrentHead Demo.dangling) = some "c1" ∧
    Demo.dangling.objects "c1" = none ∧
    (∀ out, log Demo.env 5 Demo.dangling ≠ .ok out) ∧
    (1 < 5 → log Demo.env 5 Demo.dangling = .error (Err.readFailed (FileRef.object "c1"))) :=
  ⟨by decide, by decide,
    log_rejects_missing_parent Demo.env Demo.dangling 1 "c1" (by decide) (by decide) 5⟩

theorem showFile_eq_specReport (E : Env) (st : Repo) (c : CommitData) (f : StagingEntry)
    (hblob : (st.objects f.hash).isSome)
    (hparent : truthy c.parentCommit = true → (parentRecord E st c).isSome)
    (hpblobs : ∀ pc, parentRecord E st c = some pc →
      ∀ e, pc.files.find? (fun x => decide (x.path = f.path)) = some e →
        (st.objects e.hash).isSome) :
    showFile E st c f =
      .ok (specReport E st ((parentRecord E st c).map CommitData.files) f) := by
  obtain ⟨text, htext⟩ := Option.isSome_iff_exists.mp hblob
  cases hpc : c.parentCommit with
  | none =>
    simp [showFile, getFileContent, htext, hpc, parentRecord, specReport, blob]
  | some p =>
    by_cases hp : p = ""
    · simp [showFile, getFileContent, htext, hpc, hp, parentRecord, specReport, blob]
    · have ht : truthy c.parentCommit = true := by simp [truthy, hpc, hp]
      obtain ⟨pc, hrec⟩ := Option.isSome_iff_exists.mp (hparent ht)
      have hrec2 := hrec
      simp only [parentRecord, hpc, hp, if_false] at hrec2
      cases hobj : st.objects p with
      | none => simp [hobj] at hrec2
      | some ptext =>
        cases hparse : E.parse ptext with
        | parseError => simp [hobj, hparse] at hrec2
        | null => simp [hobj, hparse] at hrec2
        | other => simp [hobj, hparse] at hrec2
        | commit pc2 =>
          simp only [hobj, hparse, Option.some.injEq] at hrec2
          subst hrec2
          cases hfind : pc2.files.find? (fun x => decide (x.path = f.path)) with
          | none =>
            simp [showFile, getFileContent, htext, hpc, hp, jsonParse, getCommitData, hobj,
              hparse, getParentFileContent, hfind, hrec, specReport, blob]
          | some e =>
            obtain ⟨etext, hetext⟩ := Option.isSome_iff_exists.mp (hpblobs pc2 hrec e hfind)
            simp [showFile, getFileContent, htext, hpc, hp, jsonParse, getCommitData, hobj,
              hparse, getParentFileContent, hfind, hetext, hrec, specReport, blob]

theorem showFiles_eq_specReport (E : Env) (st : Repo) (c : CommitData)
    (hparent : truthy c.parentCommit = true → (parentRecord E st c).isSome)
    (fs : List StagingEntry)
    (hblobs : ∀ f ∈ fs, (st.objects f.hash).isSome)
    (hpblobs : ∀ pc, parentRecord E st c = some pc → ∀ f ∈ fs,
      ∀ e, pc.files.find? (fun x => decide (x.path = f.path)) = some e →
        (st.objects e.hash).isSome) :
    showFiles E st c fs =
      .ok (fs.flatMap (specReport E st ((parentRecord E st c).map CommitData.files))) := by
  induction fs with
  | nil => simp [showFiles]
  | cons f rest ih =>
    have h1 := showFile_eq_specReport E st c f (hblobs f (by simp)) hparent
      (fun pc hpc e he => hpblobs pc hpc f (by simp) e he)
    have h2 := ih (fun g hg => hblobs g (by simp [hg]))
      (fun pc hpc g hg e he => hpblobs pc hpc g (by simp [hg]) e he)
    simp [showFiles, h1, h2]

/-- C9: for a commit present in the store whose blobs are present, whose
parent (when parentCommit is not empty) is a stored commit record, and for
which the blobs of the entries the parent has for its paths are present,
showCommitDiff returns, and after the heading it prints for each entry, in
order, what the specification says: first commit without parent, new file
when the parent lists no entry of the path, else the parts of
diffLines(parent blob, current blob) with the blob of the first entry of that
path in the parent. -/
theorem showCommitDiff_reports_each_file (E : Env) (st : Repo) (commitHash text : String)
    (c : CommitData)
    (hobj : st.objects commitHash = some text)
    (hparse : E.parse text = Parsed.commit c)
    (hblobs : ∀ f ∈ c.files, (st.objects f.hash).isSome)
    (hparent : truthy c.parentCommit = true → (parentRecord E st c).isSome)
    (hpblobs : ∀ pc, parentRecord E st c = some pc → ∀ f ∈ c.files,
      ∀ e, pc.files.find? (fun x => decide (x.path = f.path)) = some e →
        (st.objects e.hash).isSome) :
    showCommitDiff E st commitHash =
      .ok (Out.changesHeader ::
        c.files.flatMap (specReport E st ((parentRecord E st c).map CommitData.files))) := by
  have h := showFiles_eq_specReport E st c hparent c.files hblobs hpblobs
  simp [showCommitDiff, getCommitData, hobj, jsonParse, hparse, h]

theorem showCommitDiff_reports_each_file_witness :
    showCommitDiff Demo.env Demo.history "c2" =
      .ok [Out.changesHeader,
        Out.file "a.txt", Out.content "hello world", Out.diffHeader,
          Out.diffRemoved "hello", Out.diffAdded "hello world",
        Out.file "b.txt", Out.content "bee", Out.newFile] := by
  have hrec : parentRecord Demo.env Demo.history Demo.second = some Demo.first := by decide
  have h := showCommitDiff_reports_each_file Demo.env Demo.history "c2"
    (Demo.env.stringify Demo.second) Demo.second (by decide) (Demo.roundTrip _) (by decide)
    (by decide)
    (by
      intro pc hpc f hf e he
      rw [hrec] at hpc
      cases hpc
      simp only [Demo.second, List.mem_cons, List.mem_singleton, List.not_mem_nil, or_false] at hf
      rcases hf with rfl | rfl
      · have he2 : e = { path := "a.txt", hash := "sha1:hello" } := by
          have : List.find? (fun x => decide (x.path = "a.txt")) Demo.first.files =
              some { path := "a.txt", hash := "sha1:hello" } := by decide
          rw [this] at he
          exact (Option.some.inj he).symm
        subst he2
        decide
      · have : List.find? (fun x => decide (x.path = "b.txt")) Demo.first.files = none := by
          decide
        rw [this] at he
        cases he)
  rw [h]
  exact congrArg Except.ok (by decide)

/-! ## Referential integrity over runs -/

theorem step_intact (E : Env) (st : Repo) (op : Op) (h : Intact st) :
    ∃ st1, step E st op = .ok st1 ∧ Intact st1 ∧
      (∀ k, (st.objects k).isSome → (st1.objects k).isSome) ∧
      ∀ p ∈ created E st op,
        (AllStored st p.2.files ∧ LinkStored st p.2.parentCommit) ∧
        (st1.objects p.1).isSome := by
  obtain ⟨⟨I, hI, hfiles⟩, hhead⟩ := h
  cases op with
  | add path C =>
    refine ⟨_, add_ok E st I path C hI, ⟨⟨_, rfl, ?_⟩, ?_⟩, ?_, ?_⟩
    · intro f hf
      rcases List.mem_append.mp hf with hf | hf
      · exact writeFile_isSome _ _ _ _ (hfiles f hf)
      · have : f = { path := path, hash := E.hashObject C } := by simpa using hf
        subst this
        simp [writeFile]
    · intro h hh hne
      exact writeFile_isSome _ _ _ _ (hhead h hh hne)
    · intro k hk
      exact writeFile_isSome _ _ _ _ hk
    · intro p hp
      simp [created] at hp
  | commit message timeStamp =>
    refine ⟨_, commit_ok E st I message timeStamp hI, ⟨⟨_, rfl, ?_⟩, ?_⟩, ?_, ?_⟩
    · intro f hf
      simp at hf
    · intro h hh hne
      have : h = E.hashObject (E.stringify (commitData st message timeStamp I)) := by
        simpa [getCurrentHead] using hh.symm
      subst this
      simp [writeFile]
    · intro k hk
      exact writeFile_isSome _ _ _ _ hk
    · intro p hp
      have hp2 : p = (E.hashObject (E.stringify (commitData st message timeStamp I)),
          commitData st message timeStamp I) := by
        simpa [created, hI] using hp
      subst hp2
      refine ⟨⟨?_, ?_⟩, ?_⟩
      · exact hfiles
      · exact hhead
      · simp [writeFile]

theorem runTrace_intact (E : Env) (ops : List Op) :
    ∀ st, Intact st →
      ∃ st2 made, runTrace E ops st = .ok (st2, made) ∧ Intact st2 ∧
        (∀ k, (st.objects k).isSome → (st2.objects k).isSome) ∧
        ∀ p ∈ made, (st2.objects p.1).isSome ∧ AllStored st2 p.2.files ∧
          LinkStored st2 p.2.parentCommit := by
  induction ops with
  | nil =>
    intro st h
    exact ⟨st, [], rfl, h, fun _ hk => hk, by simp⟩
  | cons op ops ih =>
    intro st h
    obtain ⟨st1, hstep, h1, hmono1, hmade1⟩ := step_intact E st op h
    obtain ⟨st2, made, hrun, h2, hmono2, hmade2⟩ := ih st1 h1
    refine ⟨st2, created E st op ++ made, ?_, h2, fun k hk => hmono2 k (hmono1 k hk), ?_⟩
    · simp [runTrace, hstep, hrun]
    · intro p hp
      rcases List.mem_append.mp hp with hp | hp
      · obtain ⟨⟨hf, hl⟩, hd⟩ := hmade1 p hp
        refine ⟨hmono2 _ hd, ?_, ?_⟩
        · intro f hf2
          exact hmono2 _ (hmono1 _ (hf f hf2))
        · intro h hh hne
          exact hmono2 _ (hmono1 _ (hl h hh hne))
      · exact hmade2 p hp

theorem intact_init_blank : Intact (init Repo.blank) := by
  refine ⟨⟨[], rfl, ?_⟩, ?_⟩
  · intro f hf
    simp at hf
  · intro h hh hne
    have : h = "" := by simpa [getCurrentHead, init, Repo.blank] using hh.symm
    exact absurd this hne

theorem allStored_mono (st st1 : Repo)
    (hmono : ∀ k, (st.objects k).isSome → (st1.objects k).isSome)
    (files : List StagingEntry) (h : AllStored st files) : AllStored st1 files :=
  fun f hf => hmono _ (h f hf)

theorem linkStored_mono (st st1 : Repo)
    (hmono : ∀ k, (st.objects k).isSome → (st1.objects k).isSome)
    (link : Option String) (h : LinkStored st link) : LinkStored st1 link :=
  fun k hk hne => hmono _ (h k hk hne)

theorem step_records (E : Env) (hrt : E.RoundTrip) (all : List Op) (st : Repo) (op : Op)
    (hop : op ∈ all) (hint : Intact st) (hrec : RecordsIntact E all st) :
    ∀ st1, step E st op = .ok st1 → RecordsIntact E all st1 := by
  obtain ⟨st0, hstep0, _, hmono, _⟩ := step_intact E st op hint
  intro st1 hstep
  have hst : st0 = st1 := by
    rw [hstep0] at hstep
    exact Except.ok.inj hstep
  subst hst
  obtain ⟨⟨I, hI, hfiles⟩, hhead⟩ := hint
  intro name text c hobj hparse
  cases op with
  | add path C =>
    have hst0 : st0.objects = writeFile st.objects (E.hashObject C) C := by
      have h2 := add_ok E st I path C hI
      simp only [step] at hstep0
      rw [h2] at hstep0
      rw [← Except.ok.inj hstep0]
    rw [hst0] at hobj
    by_cases hk : name = E.hashObject C
    · have ht : text = C := by simpa [writeFile, hk] using hobj.symm
      subst ht
      exact Or.inr ⟨path, hop⟩
    · have hold : st.objects name = some text := by simpa [writeFile, hk] using hobj
      rcases hrec name text c hold hparse with h | h
      · exact Or.inl ⟨allStored_mono st st0 hmono _ h.1, linkStored_mono st st0 hmono _ h.2⟩
      · exact Or.inr h
  | commit message timeStamp =>
    have hst0 : st0.objects = writeFile st.objects
        (E.hashObject (E.stringify (commitData st message timeStamp I)))
        (E.stringify (commitData st message timeStamp I)) := by
      have h2 := commit_ok E st I message timeStamp hI
      simp only [step] at hstep0
      rw [h2] at hstep0
      rw [← Except.ok.inj hstep0]
    rw [hst0] at hobj
    by_cases hk : name = E.hashObject (E.stringify (commitData st message timeStamp I))
    · have ht : text = E.stringify (commitData st message timeStamp I) := by
        simpa [writeFile, hk] using hobj.symm
      have hc : c = commitData st message timeStamp I := by
        rw [ht, hrt (commitData st message timeStamp I)] at hparse
        exact (Parsed.commit.inj hparse).symm
      subst hc
      exact Or.inl ⟨allStored_mono st st0 hmono _ hfiles, linkStored_mono st st0 hmono _ hhead⟩
    · have hold : st.objects name = some text := by simpa [writeFile, hk] using hobj
      rcases hrec name text c hold hparse with h | h
      · exact Or.inl ⟨allStored_mono st st0 hmono _ h.1, linkStored_mono st st0 hmono _ h.2⟩
      · exact Or.inr h

theorem runTrace_records (E : Env) (hrt : E.RoundTrip) (all : List Op) (ops : List Op) :
    ∀ st, (∀ op ∈ ops, op ∈ all) → Intact st → RecordsIntact E all st →
      ∀ st2 made, runTrace E ops st = .ok (st2, made) → RecordsIntact E all st2 := by
  induction ops with
  | nil =>
    intro st _ _ hrec st2 made hrun
    simp only [runTrace] at hrun
    have : st = st2 := congrArg Prod.fst (Except.ok.inj hrun)
    subst this
    exact hrec
  | cons op ops ih =>
    intro st hall hint hrec st2 made hrun
    obtain ⟨st1, hstep, hint1, _, _⟩ := step_intact E st op hint
    have hrec1 := step_records E hrt all st op (hall op (by simp)) hint hrec st1 hstep
    obtain ⟨st3, made3, hrun3, _, _, _⟩ := runTrace_intact E ops st1 hint1
    have hst : st3 = st2 := by
      simp only [runTrace, hstep, hrun3] at hrun
      exact congrArg Prod.fst (Except.ok.inj hrun)
    subst hst
    exact ih st1 (fun o ho => hall o (by simp [ho])) hint1 hrec1 st3 made3 hrun3

theorem recordsIntact_init_blank (E : Env) (all : List Op) :
    RecordsIntact E all (init Repo.blank) := by
  intro name text c hobj _
  simp [init, Repo.blank] at hobj

theorem commit_references_stored (E : Env) (hrt : E.RoundTrip) (st : Repo)
    (message timeStamp : String) (hint : Intact st) :
    ∃ st1 d text c, commit E st message timeStamp = .ok st1 ∧ st1.head = some d ∧
      st1.objects d = some text ∧ E.parse text = Parsed.commit c ∧
      AllStored st c.files ∧ LinkStored st c.parentCommit := by
  obtain ⟨⟨I, hI, hfiles⟩, hhead⟩ := hint
  exact ⟨_, _, _, _, commit_ok E st I message timeStamp hI, rfl, writeFile_same _ _ _,
    hrt _, hfiles, hhead⟩

/-- C6: referential integrity in every state reached from a fresh repository
by add and commit calls.  The run returns.  In the state it reaches, every hash
of the staging index names a stored object, and so does HEAD when it is not
empty.  Every stored object whose text is a commit record, other than a text
that an add call of the run stored as the content of a working file, has the
hashes of its files stored and its parentCommit stored when that is not empty.
A commit made next returns, and the record it stores under the new HEAD names
only objects that were stored before the call.  Every commit made by the run
has its digest, the hashes of its files and its parentCommit stored. -/
theorem referential_integrity (E : Env) (hrt : E.RoundTrip) (ops : List Op)
    (message timeStamp : String) :
    ∃ st made, runTrace E ops (init Repo.blank) = .ok (st, made) ∧
      (∃ I, st.index = some I ∧ AllStored st I) ∧
      LinkStored st st.head ∧
      (∀ name text c, st.objects name = some text → E.parse text = Parsed.commit c →
        (AllStored st c.files ∧ LinkStored st c.parentCommit) ∨
          ∃ path, Op.add path text ∈ ops) ∧
      (∃ st1 d text c, commit E st message timeStamp = .ok st1 ∧ st1.head = some d ∧
        st1.objects d = some text ∧ E.parse text = Parsed.commit c ∧
        AllStored st c.files ∧ LinkStored st c.parentCommit) ∧
      ∀ p ∈ made, (st.objects p.1).isSome ∧ AllStored st p.2.files ∧
        LinkStored st p.2.parentCommit := by
  obtain ⟨st, made, hrun, hint, _, hmade⟩ := runTrace_intact E ops _ intact_init_blank
  have hrec := runTrace_records E hrt ops ops _ (fun _ h => h) intact_init_blank
    (recordsIntact_init_blank E ops) st made hrun
  exact ⟨st, made, hrun, hint.1, hint.2, hrec,
    commit_references_stored E hrt st message timeStamp hint, hmade⟩

theorem referential_integrity_witness :
    Demo.env.RoundTrip ∧
    ∃ st made,
      runTrace Demo.env
        [Op.add "a.txt" "hello", Op.commit "first" "t1",
         Op.add "a.txt" "hello world", Op.add "b.txt" "bee", Op.commit "second" "t2",
         Op.add "c.txt" "sea"]
        (init Repo.blank) = .ok (st, made) ∧
      (∃ I, st.index = some I ∧ AllStored st I) ∧
      LinkStored st st.head ∧
      (∀ name text c, st.objects name = some text → Demo.env.parse text = Parsed.commit c →
        (AllStored st c.files ∧ LinkStored st c.parentCommit) ∨
          ∃ path, Op.add path text ∈
            [Op.add "a.txt" "hello", Op.commit "first" "t1",
             Op.add "a.txt" "hello world", Op.add "b.txt" "bee", Op.commit "second" "t2",
             Op.add "c.txt" "sea"]) ∧
      (∃ st1 d text c, commit Demo.env st "third" "t3" = .ok st1 ∧ st1.head = some d ∧
        st1.objects d = some text ∧ Demo.env.parse text = Parsed.commit c ∧
        AllStored st c.files ∧ LinkStored st c.parentCommit) ∧
      ∀ p ∈ made, (st.objects p.1).isSome ∧ AllStored st p.2.files ∧
        LinkStored st p.2.parentCommit :=
  ⟨Demo.roundTrip, referential_integrity Demo.env Demo.roundTrip _ "third" "t3"⟩

/-! ## The history walked by log -/

theorem chainOK_digest (E : Env) (hist : List (String × CommitData)) (h : ChainOK E hist) :
    ∀ p ∈ hist, p.1 = E.hashObject (E.stringify p.2) := by
  induction hist with
  | nil => intro p hp; simp at hp
  | cons q rest ih =>
    intro p hp
    rcases List.mem_cons.mp hp with rfl | hp
    · exact h.2.1
    · exact ih h.2.2 p hp

theorem writeFile_keeps_history (E : Env) (hinj : Function.Injective E.hashObject)
    (objects : Files) (hist : List (String × CommitData)) (hchain : ChainOK E hist)
    (hobj : ∀ p ∈ hist, objects p.1 = some (E.stringify p.2)) (text : String) :
    ∀ p ∈ hist, writeFile objects (E.hashObject text) text p.1 = some (E.stringify p.2) := by
  intro p hp
  by_cases hk : p.1 = E.hashObject text
  · have hd := chainOK_digest E hist hchain p hp
    have : E.stringify p.2 = text := hinj (hd.symm.trans hk)
    simp [writeFile, hk, this]
  · simpa [writeFile, hk] using hobj p hp

theorem step_holds (E : Env) (hinj : Function.Injective E.hashObject) (st : Repo)
    (hist : List (String × CommitData)) (op : Op) (h : Holds E st hist) :
    ∃ st1, step E st op = .ok st1 ∧ Holds E st1 ((created E st op).reverse ++ hist) := by
  obtain ⟨⟨I, hI⟩, hhead, hchain, hobj⟩ := h
  cases op with
  | add path C =>
    refine ⟨_, add_ok E st I path C hI, ⟨_, rfl⟩, ?_, ?_, ?_⟩
    · simpa [created] using hhead
    · simpa [created] using hchain
    · simpa [created] using writeFile_keeps_history E hinj st.objects hist hchain hobj C
  | commit message timeStamp =>
    refine ⟨_, commit_ok E st I message timeStamp hI, ⟨_, rfl⟩, ?_, ?_, ?_⟩
    · simp [created, hI, topDigest]
    · simp only [created, hI, Option.getD_some, List.reverse_singleton, List.singleton_append,
        ChainOK]
      exact ⟨by simpa [commitData, getCurrentHead] using hhead, trivial, hchain⟩
    · intro p hp
      simp only [created, hI, Option.getD_some, List.reverse_singleton, List.singleton_append,
        List.mem_cons] at hp
      rcases hp with rfl | hp
      · simp [writeFile]
      · exact writeFile_keeps_history E hinj st.objects hist hchain hobj _ p hp

theorem length_created (E : Env) (st : Repo) (op : Op) (ops : List Op) :
    (created E st op).length + countCommits ops = countCommits (op :: ops) := by
  cases op
  · simp [created, countCommits]
  · simp [created, countCommits]; omega

theorem runTrace_holds (E : Env) (hinj : Function.Injective E.hashObject) (ops : List Op) :
    ∀ st hist, Holds E st hist →
      ∃ st2 made, runTrace E ops st = .ok (st2, made) ∧ Holds E st2 (made.reverse ++ hist) ∧
        made.length = countCommits ops := by
  induction ops with
  | nil =>
    intro st hist h
    exact ⟨st, [], rfl, by simpa using h, rfl⟩
  | cons op ops ih =>
    intro st hist h
    obtain ⟨st1, hstep, h1⟩ := step_holds E hinj st hist op h
    obtain ⟨st2, made, hrun, h2, hlen⟩ := ih st1 _ h1
    refine ⟨st2, created E st op ++ made, ?_, ?_, ?_⟩
    · simp [runTrace, hstep, hrun]
    · simpa [List.reverse_append, List.append_assoc] using h2
    · rw [List.length_append, hlen]
      exact length_created E st op ops

theorem logWalk_history (E : Env) (hne : ∀ s, E.hashObject s ≠ "") (hrt : E.RoundTrip)
    (objects : Files) (hist : List (String × CommitData)) (hchain : ChainOK E hist)
    (hobj : ∀ p ∈ hist, objects p.1 = some (E.stringify p.2)) :
    ∀ fuel, hist.length ≤ fuel →
      logWalk E objects fuel (some (topDigest hist)) = .ok (hist.flatMap logEntry) := by
  induction hist with
  | nil =>
    intro fuel _
    cases fuel <;> simp [logWalk, topDigest]
  | cons p rest ih =>
    intro fuel hfuel
    cases fuel with
    | zero => simp at hfuel
    | succ n =>
      have hn : rest.length ≤ n := by simpa using hfuel
      have hd : p.1 ≠ "" := by rw [hchain.2.1]; exact hne _
      have hstored := hobj p (by simp)
      have hrest := ih hchain.2.2 (fun q hq => hobj q (by simp [hq])) n hn
      have hparse : E.parse (E.stringify p.2) = Parsed.commit p.2 := hrt p.2
      have htop : topDigest (p :: rest) = p.1 := rfl
      rw [htop]
      simp [logWalk, hd, hstored, hparse, hchain.1, hrest, logEntry]

theorem chainOK_links (E : Env) (hist : List (String × CommitData)) (h : ChainOK E hist) :
    ∀ j a b, hist[j]? = some a → hist[j + 1]? = some b → a.2.parentCommit = some b.1 := by
  induction hist with
  | nil => intro j a b ha; simp at ha
  | cons p rest ih =>
    intro j a b ha hb
    cases j with
    | zero =>
      simp only [List.getElem?_cons_zero, Option.some.injEq] at ha
      subst ha
      simp only [List.getElem?_cons_succ] at hb
      cases rest with
      | nil => simp at hb
      | cons q rest2 =>
        simp only [List.getElem?_cons_zero, Option.some.injEq] at hb
        subst hb
        exact h.1
    | succ k =>
      simp only [List.getElem?_cons_succ] at ha hb
      exact ih h.2.2 k a b ha hb

theorem reverse_links (E : Env) (made : List (String × CommitData))
    (h : ChainOK E made.reverse) :
    ∀ i a b, made[i]? = some a → made[i + 1]? = some b → b.2.parentCommit = some a.1 := by
  intro i a b ha hb
  have hlt : i + 1 < made.length := by
    by_contra hcon
    have : made[i + 1]? = none := List.getElem?_eq_none (by omega)
    rw [this] at hb
    cases hb
  have h1 : made.reverse[made.length - 2 - i]? = some b := by
    rw [List.getElem?_reverse (by omega)]
    have : made.length - 1 - (made.length - 2 - i) = i + 1 := by omega
    rw [this]; exact hb
  have h2 : made.reverse[made.length - 2 - i + 1]? = some a := by
    rw [List.getElem?_reverse (by omega)]
    have : made.length - 1 - (made.length - 2 - i + 1) = i := by omega
    rw [this]; exact ha
  exact chainOK_links E made.reverse h _ b a h1 h2

theorem holds_init_blank (E : Env) : Holds E (init Repo.blank) [] :=
  ⟨⟨[], rfl⟩, rfl, trivial, by intro p hp; simp at hp⟩

/-- C2: with an injective hashObject that never returns the empty string (and
JSON.parse giving back the records JSON.stringify wrote), every sequence of
add and commit calls on a fresh repository returns, makes as many commits as
it has commit calls, and afterwards log, allowed at least that many steps,
returns after printing exactly those commits, newest first; each commit made
after another records the digest of the one made just before it. -/
theorem log_walks_all_commits (E : Env) (hinj : Function.Injective E.hashObject)
    (hne : ∀ s, E.hashObject s ≠ "") (hrt : E.RoundTrip) (ops : List Op) :
    ∃ st made, runTrace E ops (init Repo.blank) = .ok (st, made) ∧
      made.length = countCommits ops ∧
      (∀ fuel, made.length ≤ fuel → log E fuel st = .ok (made.reverse.flatMap logEntry)) ∧
      (∀ i a b, made[i]? = some a → made[i + 1]? = some b → b.2.parentCommit = some a.1) := by
  obtain ⟨st, made, hrun, hholds, hlen⟩ :=
    runTrace_holds E hinj ops (init Repo.blank) [] (holds_init_blank E)
  rw [List.append_nil] at hholds
  obtain ⟨_, hhead, hchain, hobj⟩ := hholds
  refine ⟨st, made, hrun, hlen, ?_, reverse_links E made hchain⟩
  intro fuel hfuel
  have := logWalk_history E hne hrt st.objects made.reverse hchain hobj fuel (by simpa using hfuel)
  simpa [log, getCurrentHead, hhead] using this

theorem log_walks_all_commits_witness :
    ∃ st made,
      runTrace Demo.env
        [Op.add "a.txt" "hello", Op.commit "first" "t1",
         Op.add "a.txt" "hello world", Op.add "b.txt" "bee", Op.commit "second" "t2"]
        (init Repo.blank) = .ok (st, made) ∧
      made.length = countCommits
        [Op.add "a.txt" "hello", Op.commit "first" "t1",
         Op.add "a.txt" "hello world", Op.add "b.txt" "bee", Op.commit "second" "t2"] ∧
      (∀ fuel, made.length ≤ fuel →
        log Demo.env fuel st = .ok (made.reverse.flatMap logEntry)) ∧
      (∀ i a b, made[i]? = some a → made[i + 1]? = some b → b.2.parentCommit = some a.1) :=
  log_walks_all_commits Demo.env Demo.hash_injective Demo.hash_ne_empty Demo.roundTrip _

end Grove
